import Mathlib

/-!
Shallow embedding of the morphological core of `_morph.cpp`: binary
erosion, grayscale dilation, and marker-controlled watershed over dense
n-dimensional arrays, parameterized by a structuring element.

Element values of the C++ template type `T` are modelled as `Int`;
`numeric_limits<T>::max()` becomes an explicit parameter `tmax` where the
code uses it.  Arrays are a shape (list of extents) together with a
position-indexed value function; the C++ code only ever reads or writes
in-bounds positions, so the function representation is faithful on the
valid region.  The linear iteration order of the C++ array iterators is
row-major, recovered by `unflatten`.
-/

namespace Morph

/-- A position: one integer coordinate per dimension
(`numpy::position`). -/
abbrev Pos := List Int

/-- Coordinatewise addition of positions (`operator+`). -/
def padd (p q : Pos) : Pos := List.zipWith (· + ·) p q

/-- Coordinatewise subtraction of positions (`operator-`). -/
def psub (p q : Pos) : Pos := List.zipWith (· - ·) p q

/-- Number of elements of an array of the given shape (`size()`):
the product of the extents. -/
def prodDims (dims : List Nat) : Nat := dims.foldr (· * ·) 1

/-- Row-major position of the element at linear index `i`
(the `position()` of the C++ array iterators after `i` increments). -/
def unflatten : List Nat → Nat → Pos
  | [], _ => []
  | _ :: rest, i => ((i / prodDims rest : Nat) : Int) :: unflatten rest (i % prodDims rest)

/-- Row-major linear index of a position (inverse of `unflatten` on the
valid region). -/
def flatten : List Nat → Pos → Nat
  | [], _ => 0
  | _ :: _, [] => 0
  | _ :: rest, c :: cs => c.toNat * prodDims rest + flatten rest cs

/-- The `validposition` check: every coordinate lies in `[0, extent_d)` and the
dimensionality matches. -/
def validposition (dims : List Nat) (p : Pos) : Bool :=
  p.length = dims.length &&
    (List.zip p dims).all (fun cd => 0 ≤ cd.1 && cd.1 < (cd.2 : Int))

/-- A dense n-dimensional array: shape plus element values. -/
structure NDArray where
  dims : List Nat
  data : Pos → Int

/-- Bounds-checked element read (`at`); the C++ code only calls it on
valid positions. -/
def NDArray.at_ (a : NDArray) (p : Pos) : Int := a.data p

/-- Pointwise write to a value function (one `at(pos) = v` store). -/
def upd (f : Pos → Int) (p : Pos) (v : Int) : Pos → Int :=
  fun q => if q = p then v else f q

/-- Write to a boolean value function (`status.at(pos) = true`). -/
def updB (f : Pos → Bool) (p : Pos) (v : Bool) : Pos → Bool :=
  fun q => if q = p then v else f q

theorem upd_same (f : Pos → Int) (p : Pos) (v : Int) : upd f p v p = v := by
  simp [upd]

theorem upd_ne (f : Pos → Int) (p : Pos) (v : Int) (q : Pos) (h : q ≠ p) :
    upd f p v q = f q := by
  simp [upd, h]

theorem updB_same (f : Pos → Bool) (p : Pos) (v : Bool) : updB f p v p = v := by
  simp [updB]

theorem updB_ne (f : Pos → Bool) (p : Pos) (v : Bool) (q : Pos) (h : q ≠ p) :
    updB f p v q = f q := by
  simp [updB, h]

/-- The `central_position` of a shape: halve every extent (integer division). -/
def central_position (dims : List Nat) : Pos :=
  dims.map (fun d => ((d / 2 : Nat) : Int))

/-- A `bool` converted to the element type, as in `*rpos = on`. -/
def boolToInt (b : Bool) : Int := if b then 1 else 0

/-! ### Erosion -/

/-- The neighbor position `rpos.position() + startc.position() - centre`. -/
def nbr (centre p cell : Pos) : Pos := psub (padd p cell) centre

/-- The `on` flag computed by the inner loop of `erode` at output
position `p`: scanning the structuring-element cells in linear order,
`on` is cleared (and the scan stops) at the first active cell whose
neighbor is valid and holds a zero; `List.all` has exactly this
short-circuit conjunction semantics. -/
def erodeOn (array Bc : NDArray) (p : Pos) : Bool :=
  (List.range (prodDims Bc.dims)).all (fun j =>
    let cell := unflatten Bc.dims j
    !(Bc.at_ cell != 0 && validposition array.dims (nbr (central_position Bc.dims) p cell)
        && (array.at_ (nbr (central_position Bc.dims) p cell) == 0)))

/-- The `erode` operator: each output element is the `on` flag converted to the
element type. -/
def erode (array Bc : NDArray) : NDArray :=
  { dims := array.dims
    data := fun p => boolToInt (erodeOn array Bc p) }

/-! ### Basic facts about shapes and linear indexing -/

theorem prodDims_nil : prodDims [] = 1 := rfl

theorem prodDims_cons (d : Nat) (ds : List Nat) :
    prodDims (d :: ds) = d * prodDims ds := rfl

theorem validposition_nil_iff (p : Pos) :
    validposition [] p = true ↔ p = [] := by
  cases p with
  | nil => simp [validposition]
  | cons c cs => simp [validposition]

theorem validposition_cons_iff (d : Nat) (ds : List Nat) (c : Int) (cs : Pos) :
    validposition (d :: ds) (c :: cs) = true ↔
      (0 ≤ c ∧ c < (d : Int) ∧ validposition ds cs = true) := by
  simp only [validposition, List.length_cons, List.zip_cons_cons, List.all_cons,
    Bool.and_eq_true, decide_eq_true_eq, Nat.add_right_cancel_iff, List.all_eq_true,
    Prod.forall]
  tauto

theorem validposition_cons_nil (d : Nat) (ds : List Nat) :
    validposition (d :: ds) [] = false := by
  simp [validposition]

/-- A valid position exists only when every extent is positive, so the
total size is positive. -/
theorem prodDims_pos_of_valid (dims : List Nat) (p : Pos)
    (h : validposition dims p = true) : 0 < prodDims dims := by
  induction dims generalizing p with
  | nil => simp [prodDims]
  | cons d ds ih =>
    cases p with
    | nil => simp [validposition_cons_nil] at h
    | cons c cs =>
      rw [validposition_cons_iff] at h
      obtain ⟨h0, hd, hcs⟩ := h
      have hdpos : 0 < d := by
        by_contra hc
        push_neg at hc
        interval_cases d
        omega
      have := ih cs hcs
      rw [prodDims_cons]
      exact Nat.mul_pos hdpos this

theorem unflatten_valid (dims : List Nat) (i : Nat) (h : i < prodDims dims) :
    validposition dims (unflatten dims i) = true := by
  induction dims generalizing i with
  | nil => simp [unflatten, validposition]
  | cons d ds ih =>
    rw [prodDims_cons] at h
    have hP : 0 < prodDims ds := by
      rcases Nat.eq_zero_or_pos (prodDims ds) with h0 | h0
      · rw [h0, Nat.mul_zero] at h; omega
      · exact h0
    rw [unflatten, validposition_cons_iff]
    refine ⟨by positivity, ?_, ih _ (Nat.mod_lt _ hP)⟩
    have hlt : i < prodDims ds * d := by rw [Nat.mul_comm]; exact h
    have : i / prodDims ds < d := Nat.div_lt_of_lt_mul hlt
    exact_mod_cast this

theorem flatten_lt (dims : List Nat) (p : Pos)
    (h : validposition dims p = true) : flatten dims p < prodDims dims := by
  induction dims generalizing p with
  | nil => simp [flatten, prodDims]
  | cons d ds ih =>
    cases p with
    | nil => simp [validposition_cons_nil] at h
    | cons c cs =>
      rw [validposition_cons_iff] at h
      obtain ⟨h0, hd, hcs⟩ := h
      have h1 := ih cs hcs
      rw [flatten, prodDims_cons]
      have hc : c.toNat < d := by omega
      calc c.toNat * prodDims ds + flatten ds cs
          < c.toNat * prodDims ds + prodDims ds := by omega
        _ = (c.toNat + 1) * prodDims ds := by ring
        _ ≤ d * prodDims ds := Nat.mul_le_mul_right _ (by omega)

theorem flatten_unflatten (dims : List Nat) (i : Nat) (h : i < prodDims dims) :
    flatten dims (unflatten dims i) = i := by
  induction dims generalizing i with
  | nil => simp [prodDims] at h; simp [unflatten, flatten, h]
  | cons d ds ih =>
    rw [prodDims_cons] at h
    have hP : 0 < prodDims ds := by
      rcases Nat.eq_zero_or_pos (prodDims ds) with h0 | h0
      · rw [h0, Nat.mul_zero] at h; omega
      · exact h0
    rw [unflatten, flatten, Int.toNat_ofNat, ih _ (Nat.mod_lt _ hP)]
    have := Nat.div_add_mod i (prodDims ds)
    rw [Nat.mul_comm] at this
    omega

theorem unflatten_flatten (dims : List Nat) (p : Pos)
    (h : validposition dims p = true) : unflatten dims (flatten dims p) = p := by
  induction dims generalizing p with
  | nil => rw [validposition_nil_iff] at h; simp [unflatten, h]
  | cons d ds ih =>
    cases p with
    | nil => simp [validposition_cons_nil] at h
    | cons c cs =>
      rw [validposition_cons_iff] at h
      obtain ⟨h0, hd, hcs⟩ := h
      have hf : flatten ds cs < prodDims ds := flatten_lt ds cs hcs
      have hP : 0 < prodDims ds := by omega
      rw [flatten, unflatten]
      have hdiv : (c.toNat * prodDims ds + flatten ds cs) / prodDims ds = c.toNat := by
        rw [Nat.add_comm, Nat.add_mul_div_right _ _ hP, Nat.div_eq_of_lt hf, Nat.zero_add]
      have hmod : (c.toNat * prodDims ds + flatten ds cs) % prodDims ds = flatten ds cs := by
        rw [Nat.add_comm, Nat.add_mul_mod_self_right, Nat.mod_eq_of_lt hf]
      rw [hdiv, hmod, ih cs hcs]
      congr 1
      omega

theorem unflatten_inj (dims : List Nat) (i k : Nat)
    (hi : i < prodDims dims) (hk : k < prodDims dims)
    (h : unflatten dims i = unflatten dims k) : i = k := by
  have := flatten_unflatten dims i hi
  have := flatten_unflatten dims k hk
  rw [← flatten_unflatten dims i hi, ← flatten_unflatten dims k hk, h]

/-- The inner-loop flag of `erode` is `true` exactly when every active
structuring-element cell whose neighbor is in bounds sees a nonzero
array value there. -/
theorem erodeOn_eq_true_iff (array Bc : NDArray) (p : Pos) :
    erodeOn array Bc p = true ↔
      ∀ cell, validposition Bc.dims cell = true → Bc.at_ cell ≠ 0 →
        validposition array.dims (nbr (central_position Bc.dims) p cell) = true →
        array.at_ (nbr (central_position Bc.dims) p cell) ≠ 0 := by
  have hf : ∀ cell,
      ((!(Bc.at_ cell != 0 &&
          validposition array.dims (nbr (central_position Bc.dims) p cell) &&
          (array.at_ (nbr (central_position Bc.dims) p cell) == 0))) = true) ↔
      (Bc.at_ cell ≠ 0 →
        validposition array.dims (nbr (central_position Bc.dims) p cell) = true →
        array.at_ (nbr (central_position Bc.dims) p cell) ≠ 0) := by
    intro cell
    simp only [Bool.not_eq_true', Bool.and_eq_false_iff, bne_eq_false_iff_eq,
      beq_eq_false_iff_ne, beq_iff_eq, ne_eq, Bool.not_eq_true]
    constructor
    · rintro (h | h) hact hval
      · rcases h with h | h
        · exact absurd h hact
        · rw [hval] at h; simp at h
      · exact h
    · intro h
      by_cases hact : Bc.at_ cell = 0
      · exact Or.inl (Or.inl hact)
      · by_cases hval : validposition array.dims
            (nbr (central_position Bc.dims) p cell) = true
        · exact Or.inr (h hact hval)
        · exact Or.inl (Or.inr (by simpa using hval))
  rw [erodeOn, List.all_eq_true]
  constructor
  · intro h cell hvc hact hval
    have hlt := flatten_lt Bc.dims cell hvc
    have h2 := h (flatten Bc.dims cell) (List.mem_range.mpr hlt)
    simp only [unflatten_flatten Bc.dims cell hvc] at h2
    exact (hf cell).mp h2 hact hval
  · intro h j hj
    have hvc := unflatten_valid Bc.dims j (List.mem_range.mp hj)
    exact (hf (unflatten Bc.dims j)).mpr (h (unflatten Bc.dims j) hvc)

/-- C5: `erode` writes 1 at `p` exactly when every active structuring
element cell whose neighbor `p + o` is a valid position of `array` holds
a nonzero value there, and 0 otherwise; a cell whose neighbor lies out of
bounds imposes no constraint (it simply does not appear among the premises
of the right-hand side), so a position all of whose zero neighbors lie
outside the array erodes to 1. -/
theorem erode_pointwise (array Bc : NDArray) (p : Pos)
    (hp : validposition array.dims p = true) :
    ((erode array Bc).at_ p = 1 ↔
      (∀ cell, validposition Bc.dims cell = true → Bc.at_ cell ≠ 0 →
        validposition array.dims (nbr (central_position Bc.dims) p cell) = true →
        array.at_ (nbr (central_position Bc.dims) p cell) ≠ 0)) ∧
    ((erode array Bc).at_ p = 0 ↔
      ¬ (∀ cell, validposition Bc.dims cell = true → Bc.at_ cell ≠ 0 →
        validposition array.dims (nbr (central_position Bc.dims) p cell) = true →
        array.at_ (nbr (central_position Bc.dims) p cell) ≠ 0)) := by
  have h := erodeOn_eq_true_iff array Bc p
  show (boolToInt (erodeOn array Bc p) = 1 ↔ _) ∧ (boolToInt (erodeOn array Bc p) = 0 ↔ _)
  cases he : erodeOn array Bc p with
  | true =>
    rw [he] at h
    have hc := h.mp rfl
    simp only [boolToInt]
    exact ⟨iff_of_true rfl hc, iff_of_false (by norm_num) (by simpa using hc)⟩
  | false =>
    rw [he] at h
    have hnc : ¬ _ := fun hh => by simpa using h.mpr hh
    simp only [boolToInt]
    exact ⟨iff_of_false (by norm_num) hnc, iff_of_true rfl hnc⟩

/-- Concrete inputs for the erosion witnesses: a 1-D array of length 3
with a zero at index 1, and an all-ones 3-element structuring element. -/
def arrE : NDArray := ⟨[3], fun p => if p = [1] then 0 else 1⟩

def bcE : NDArray := ⟨[3], fun _ => 1⟩

theorem erode_pointwise_witness :
    validposition arrE.dims [0] = true ∧
    (((erode arrE bcE).at_ [0] = 1 ↔
      (∀ cell, validposition bcE.dims cell = true → bcE.at_ cell ≠ 0 →
        validposition arrE.dims (nbr (central_position bcE.dims) [0] cell) = true →
        arrE.at_ (nbr (central_position bcE.dims) [0] cell) ≠ 0)) ∧
    ((erode arrE bcE).at_ [0] = 0 ↔
      ¬ (∀ cell, validposition bcE.dims cell = true → bcE.at_ cell ≠ 0 →
        validposition arrE.dims (nbr (central_position bcE.dims) [0] cell) = true →
        arrE.at_ (nbr (central_position bcE.dims) [0] cell) ≠ 0))) :=
  ⟨by decide, erode_pointwise arrE bcE [0] (by decide)⟩

/-- C10: every element of the array returned by `erode` is 0 or 1 (the
boolean flag converted to the element type), whatever the input values. -/
theorem erode_result_binary (array Bc : NDArray) (p : Pos) :
    (erode array Bc).at_ p = 0 ∨ (erode array Bc).at_ p = 1 := by
  show boolToInt (erodeOn array Bc p) = 0 ∨ boolToInt (erodeOn array Bc p) = 1
  cases erodeOn array Bc p with
  | true => exact Or.inr rfl
  | false => exact Or.inl rfl

/-! ### Dilation -/

/-- The store attempted at loop indices `(i, j)` of `dilate`'s two nested
loops: `i` scans the source array, `j` scans the structuring element;
the store happens when the source element is nonzero (outer guard), the
cell is active (inner guard) and the neighbor is in bounds, and it writes
`array.at(p) + Bc-weight` to the neighbor. -/
def writeOf (array Bc : NDArray) (i j : Nat) : Option (Pos × Int) :=
  let p := unflatten array.dims i
  let cell := unflatten Bc.dims j
  if array.at_ p ≠ 0 ∧ Bc.at_ cell ≠ 0 ∧
      validposition array.dims (nbr (central_position Bc.dims) p cell) = true then
    some (nbr (central_position Bc.dims) p cell, array.at_ p + Bc.at_ cell)
  else none

/-- All `(i, j)` loop-index pairs of the two nested loops, in execution
(lexicographic) order. -/
def allPairs (n n2 : Nat) : List (Nat × Nat) :=
  (List.range n).flatMap (fun i => (List.range n2).map (fun j => (i, j)))

/-- The sequence of stores `dilate` performs, in execution order. -/
def dilateWrites (array Bc : NDArray) : List (Pos × Int) :=
  (allPairs (prodDims array.dims) (prodDims Bc.dims)).filterMap
    (fun ij => writeOf array Bc ij.1 ij.2)

/-- The `dilate` operator: the result starts at zero everywhere (the binding layer's
freshly allocated output is zero-filled) and the stores are applied in
execution order, each overwriting the target element. -/
def dilate (array Bc : NDArray) : NDArray :=
  { dims := array.dims
    data := (dilateWrites array Bc).foldl (fun f w => upd f w.1 w.2) (fun _ => 0) }

/-- The value the fold of stores leaves at target `n`: the payload of the
last store aimed at `n`, or the initial value if none is. -/
def lastTo (ws : List (Pos × Int)) (n : Pos) (dflt : Int) : Int :=
  ws.foldl (fun v w => if w.1 = n then w.2 else v) dflt

theorem foldl_upd_eq_lastTo (ws : List (Pos × Int)) (f0 : Pos → Int) (n : Pos) :
    (ws.foldl (fun f w => upd f w.1 w.2) f0) n = lastTo ws n (f0 n) := by
  induction ws generalizing f0 with
  | nil => rfl
  | cons w rest ih =>
    rw [List.foldl_cons, ih]
    have hupd : upd f0 w.1 w.2 n = if w.1 = n then w.2 else f0 n := by
      unfold upd
      by_cases h : w.1 = n
      · rw [if_pos h.symm, if_pos h]
      · have h' : ¬ n = w.1 := fun hh => h hh.symm
        rw [if_neg h', if_neg h]
    rw [hupd]
    rfl

theorem lastTo_of_no_write (F : Nat × Nat → Option (Pos × Int)) (n : Pos)
    (l : List (Nat × Nat)) (h : ∀ x ∈ l, ∀ w, F x = some w → w.1 ≠ n)
    (d : Int) : lastTo (l.filterMap F) n d = d := by
  induction l generalizing d with
  | nil => rfl
  | cons a rest ih =>
    rw [List.filterMap_cons]
    cases hFa : F a with
    | none => exact ih (fun x hx => h x (List.mem_cons_of_mem a hx)) d
    | some w =>
      have hne := h a (List.mem_cons_self a rest) w hFa
      rw [lastTo, List.foldl_cons, if_neg hne]
      exact ih (fun x hx => h x (List.mem_cons_of_mem a hx)) d

/-- Strict lexicographic order on loop-index pairs: the execution order
of the two nested loops. -/
def pairLt (a b : Nat × Nat) : Prop := a.1 < b.1 ∨ (a.1 = b.1 ∧ a.2 < b.2)

theorem lastTo_of_max_write (F : Nat × Nat → Option (Pos × Int)) (n : Pos)
    (l : List (Nat × Nat)) (hpw : l.Pairwise pairLt)
    (x : Nat × Nat) (hx : x ∈ l) (v : Pos × Int) (hFx : F x = some v)
    (hvn : v.1 = n)
    (hmax : ∀ y ∈ l, ∀ w, F y = some w → w.1 = n → pairLt y x ∨ y = x)
    (d : Int) : lastTo (l.filterMap F) n d = v.2 := by
  induction l generalizing d with
  | nil => cases hx
  | cons a rest ih =>
    have hpw' := List.pairwise_cons.mp hpw
    rcases List.mem_cons.mp hx with rfl | hxr
    · -- the maximal writer is the head: no later element may write to n
      have hrest : ∀ y ∈ rest, ∀ w, F y = some w → w.1 ≠ n := by
        intro y hy w hFy hwn
        rcases hmax y (List.mem_cons_of_mem _ hy) w hFy hwn with hlt | rfl
        · rcases hpw'.1 y hy with h1 | ⟨h1, h2⟩ <;>
            rcases hlt with h3 | ⟨h3, h4⟩ <;> omega
        · rcases hpw'.1 y hy with h1 | ⟨h1, h2⟩ <;> omega
      rw [List.filterMap_cons, hFx, lastTo, List.foldl_cons, if_pos hvn]
      exact lastTo_of_no_write F n rest hrest v.2
    · rw [List.filterMap_cons]
      have hmax' : ∀ y ∈ rest, ∀ w, F y = some w → w.1 = n → pairLt y x ∨ y = x :=
        fun y hy w hFy hwn => hmax y (List.mem_cons_of_mem _ hy) w hFy hwn
      cases hFa : F a with
      | none => exact ih hpw'.2 hxr hmax' d
      | some w =>
        rw [lastTo, List.foldl_cons]
        exact ih hpw'.2 hxr hmax' _

theorem mem_allPairs (n n2 : Nat) (ij : Nat × Nat) :
    ij ∈ allPairs n n2 ↔ ij.1 < n ∧ ij.2 < n2 := by
  unfold allPairs
  simp only [List.mem_flatMap, List.mem_map, List.mem_range]
  constructor
  · rintro ⟨i, hi, j, hj, rfl⟩; exact ⟨hi, hj⟩
  · rintro ⟨h1, h2⟩; exact ⟨ij.1, h1, ij.2, h2, rfl⟩

theorem pairwise_flatMap_pairs (n2 : Nat) (l : List Nat) (hl : l.Pairwise (· < ·)) :
    (l.flatMap (fun i => (List.range n2).map (fun j => (i, j)))).Pairwise pairLt := by
  induction l with
  | nil => exact List.Pairwise.nil
  | cons a t ih =>
    rw [List.pairwise_cons] at hl
    rw [List.flatMap_cons, List.pairwise_append]
    refine ⟨?_, ih hl.2, ?_⟩
    · exact List.Pairwise.map _ (fun j j' h => Or.inr ⟨rfl, h⟩)
        (List.pairwise_lt_range n2)
    · intro x hx y hy
      rcases List.mem_map.mp hx with ⟨j, _, rfl⟩
      rcases List.mem_flatMap.mp hy with ⟨i, hi, hyi⟩
      rcases List.mem_map.mp hyi with ⟨j', _, rfl⟩
      exact Or.inl (hl.1 i hi)

theorem pairwise_allPairs (n n2 : Nat) : (allPairs n n2).Pairwise pairLt :=
  pairwise_flatMap_pairs n2 (List.range n) (List.pairwise_lt_range n)

theorem writeOf_eq_some (array Bc : NDArray) (i j : Nat) (w : Pos × Int) :
    writeOf array Bc i j = some w ↔
      (array.at_ (unflatten array.dims i) ≠ 0 ∧
       Bc.at_ (unflatten Bc.dims j) ≠ 0 ∧
       validposition array.dims
         (nbr (central_position Bc.dims) (unflatten array.dims i)
           (unflatten Bc.dims j)) = true ∧
       w = (nbr (central_position Bc.dims) (unflatten array.dims i)
              (unflatten Bc.dims j),
            array.at_ (unflatten array.dims i) + Bc.at_ (unflatten Bc.dims j))) := by
  simp only [writeOf]
  split_ifs with h
  · constructor
    · intro he
      exact ⟨h.1, h.2.1, h.2.2, (Option.some_inj.mp he).symm⟩
    · rintro ⟨_, _, _, rfl⟩
      rfl
  · constructor
    · intro he; cases he
    · rintro ⟨h1, h2, h3, _⟩
      exact absurd ⟨h1, h2, h3⟩ h

/-- Predicate `dilScatters array Bc i j n`: at loop indices `(i, j)` the dilation
scatter fires and targets position `n`: the source element at loop index
`i` is nonzero, the structuring-element cell at loop index `j` is active,
and the neighbor `p + o` is the valid position `n`. -/
def dilScatters (array Bc : NDArray) (i j : Nat) (n : Pos) : Prop :=
  i < prodDims array.dims ∧ j < prodDims Bc.dims ∧
  array.at_ (unflatten array.dims i) ≠ 0 ∧
  Bc.at_ (unflatten Bc.dims j) ≠ 0 ∧
  validposition array.dims n = true ∧
  nbr (central_position Bc.dims) (unflatten array.dims i) (unflatten Bc.dims j) = n

/-- C6: the dilation scatter is last-writer-wins.  A result position
never targeted by any firing `(i, j)` pair keeps its initial zero value;
and if `(i, j)` is the last pair in scan order (outer loop over source
positions, inner loop over structuring-element cells) that targets `n`,
the final value at `n` is `array.at(p) + w` from exactly that pair — an
overwrite, not a max or sum reduction. -/
theorem dilate_last_writer_wins (array Bc : NDArray) (n : Pos) :
    ((¬ ∃ i j, dilScatters array Bc i j n) → (dilate array Bc).at_ n = 0) ∧
    (∀ i j, dilScatters array Bc i j n →
      (∀ i' j', dilScatters array Bc i' j' n → i' < i ∨ (i' = i ∧ j' ≤ j)) →
      (dilate array Bc).at_ n =
        array.at_ (unflatten array.dims i) + Bc.at_ (unflatten Bc.dims j)) := by
  have hbase : (dilate array Bc).at_ n = lastTo (dilateWrites array Bc) n 0 :=
    foldl_upd_eq_lastTo _ _ n
  constructor
  · intro hno
    rw [hbase]
    apply lastTo_of_no_write
    intro x hx w hFw hwn
    rcases (mem_allPairs _ _ x).mp hx with ⟨hx1, hx2⟩
    rcases (writeOf_eq_some array Bc x.1 x.2 w).mp hFw with ⟨h1, h2, h3, rfl⟩
    exact hno ⟨x.1, x.2, hx1, hx2, h1, h2, by rwa [← hwn], hwn⟩
  · intro i j hs hmax
    rw [hbase]
    obtain ⟨hi, hj, harr, hbc, hval, heq⟩ := hs
    have hw : writeOf array Bc i j =
        some (nbr (central_position Bc.dims) (unflatten array.dims i)
                (unflatten Bc.dims j),
              array.at_ (unflatten array.dims i) + Bc.at_ (unflatten Bc.dims j)) :=
      (writeOf_eq_some array Bc i j _).mpr ⟨harr, hbc, by rwa [heq], rfl⟩
    refine lastTo_of_max_write _ n (allPairs (prodDims array.dims) (prodDims Bc.dims))
      (pairwise_allPairs _ _) (i, j) ((mem_allPairs _ _ (i, j)).mpr ⟨hi, hj⟩)
      (nbr (central_position Bc.dims) (unflatten array.dims i) (unflatten Bc.dims j),
        array.at_ (unflatten array.dims i) + Bc.at_ (unflatten Bc.dims j))
      hw heq ?_ 0
    intro y hy w hFy hwn
    rcases (mem_allPairs _ _ y).mp hy with ⟨hy1, hy2⟩
    rcases (writeOf_eq_some array Bc y.1 y.2 w).mp hFy with ⟨h1, h2, h3, rfl⟩
    have hys : dilScatters array Bc y.1 y.2 n := ⟨hy1, hy2, h1, h2, by rwa [← hwn], hwn⟩
    rcases hmax y.1 y.2 hys with hlt | ⟨he1, hle⟩
    · exact Or.inl (Or.inl hlt)
    · rcases Nat.lt_or_ge y.2 j with h4 | h4
      · exact Or.inl (Or.inr ⟨he1, h4⟩)
      · have : y.2 = j := Nat.le_antisymm hle h4
        exact Or.inr (Prod.ext he1 this)

/-- A position touched by some foreground source under `Bc`:
some `(i, j)` scatter fires and targets it. -/
def dilTouched (array Bc : NDArray) (n : Pos) : Prop :=
  ∃ i j, dilScatters array Bc i j n

/-- C7: when every active structuring-element weight is zero, `dilate` is
pointwise ≥ the input at every position touched by some foreground
source.  In this code a cell is active exactly when its value — which is
also its weight — is nonzero, so the hypothesis forces `Bc` to have no
active cells and no position is ever touched. -/
theorem dilate_flat_extensive (array Bc : NDArray)
    (hflat : ∀ j < prodDims Bc.dims,
      Bc.at_ (unflatten Bc.dims j) ≠ 0 → Bc.at_ (unflatten Bc.dims j) = 0) :
    ∀ n, dilTouched array Bc n → array.at_ n ≤ (dilate array Bc).at_ n := by
  rintro n ⟨i, j, hs⟩
  exact absurd (hflat j hs.2.1 hs.2.2.2.1) hs.2.2.2.1

/-- All-zero structuring element used by the flat-dilation witness. -/
def bcZ : NDArray := ⟨[3], fun _ => 0⟩

theorem dilate_flat_extensive_witness :
    (∀ j < prodDims bcZ.dims,
      bcZ.at_ (unflatten bcZ.dims j) ≠ 0 → bcZ.at_ (unflatten bcZ.dims j) = 0) ∧
    (∀ n, dilTouched arrE bcZ n → arrE.at_ n ≤ (dilate arrE bcZ).at_ n) :=
  ⟨by decide, dilate_flat_extensive arrE bcZ (by decide)⟩

/-! ### Watershed: the priority queue -/

/-- Conversion of an element value to C `int` on a 32-bit-`int` platform:
two's-complement wraparound into `[-2^31, 2^31)`.  `MarkerInfo`'s
constructor takes `int` parameters, so both push sites convert the
`BaseType` cost through this. -/
def toCInt (x : Int) : Int := Int.bmod x (2 ^ 32)

/-- A `MarkerInfo` queue entry: priority, insertion index and position.
`cost` and `idx` are C `int` fields whatever the array element type. -/
structure MarkerInfo where
  cost : Int
  idx : Int
  pos : Pos
deriving DecidableEq

/-- The comparison `MarkerInfo::operator<`: it is deliberately reversed so
that the `std::priority_queue` max-heap pops the smallest cost, ties
broken toward the smallest insertion index. -/
def miLess (a b : MarkerInfo) : Bool :=
  if a.cost = b.cost then decide (a.idx > b.idx) else decide (a.cost > b.cost)

/-- The `std::priority_queue::top` operation: a maximal element under `operator<`
(with the reversed comparator, the lexicographically least
`(cost, idx)`). -/
def qtop : List MarkerInfo → Option MarkerInfo
  | [] => none
  | m :: rest => some (rest.foldl (fun a b => if miLess a b then b else a) m)

/-- Removal of one occurrence of the popped entry. -/
def removeFirst : List MarkerInfo → MarkerInfo → List MarkerInfo
  | [], _ => []
  | x :: xs, m => if x = m then xs else x :: removeFirst xs m

/-- A `top()` followed by `pop()`. -/
def qpop (q : List MarkerInfo) : Option (MarkerInfo × List MarkerInfo) :=
  match qtop q with
  | none => none
  | some m => some (m, removeFirst q m)

/-- Weak lexicographic order on `(cost, idx)`. -/
def lexLe (a b : MarkerInfo) : Prop :=
  a.cost < b.cost ∨ (a.cost = b.cost ∧ a.idx ≤ b.idx)

theorem miLess_eq_false_iff (a b : MarkerInfo) :
    miLess a b = false ↔ lexLe a b := by
  unfold miLess lexLe
  split_ifs with h
  · simp only [h, decide_eq_false_iff_not, not_lt, lt_self_iff_false, false_or,
      true_and, gt_iff_lt]
  · simp only [decide_eq_false_iff_not, not_lt, gt_iff_lt]
    constructor
    · intro hle
      exact Or.inl (lt_of_le_of_ne hle h)
    · rintro (hlt | ⟨he, _⟩)
      · exact le_of_lt hlt
      · exact absurd he h

theorem lexLe_trans (a b c : MarkerInfo) (h1 : lexLe a b) (h2 : lexLe b c) :
    lexLe a c := by
  unfold lexLe at *
  omega

theorem lexLe_of_le_of_lt (a b c : MarkerInfo) (h1 : lexLe a b)
    (h2 : b.cost < c.cost ∨ (b.cost = c.cost ∧ b.idx < c.idx)) : lexLe a c := by
  unfold lexLe at *
  omega

theorem qfold_spec (l : List MarkerInfo) (m : MarkerInfo) :
    (l.foldl (fun a b => if miLess a b then b else a) m = m ∨
      l.foldl (fun a b => if miLess a b then b else a) m ∈ l) ∧
    lexLe (l.foldl (fun a b => if miLess a b then b else a) m) m ∧
    ∀ e ∈ l, lexLe (l.foldl (fun a b => if miLess a b then b else a) m) e := by
  induction l generalizing m with
  | nil =>
    refine ⟨Or.inl rfl, Or.inr ⟨rfl, le_refl _⟩, ?_⟩
    intro e he
    cases he
  | cons b l ih =>
    rw [List.foldl_cons]
    obtain ⟨ihmem, ihacc, ihall⟩ := ih (if miLess m b then b else m)
    by_cases hmb : miLess m b = true
    · rw [if_pos hmb] at ihmem ihacc ihall
      have hbm : b.cost < m.cost ∨ (b.cost = m.cost ∧ b.idx < m.idx) := by
        unfold miLess at hmb
        split_ifs at hmb with h
        · exact Or.inr ⟨h.symm, by simpa using hmb⟩
        · exact Or.inl (by simpa using hmb)
      rw [if_pos hmb]
      refine ⟨?_, ?_, ?_⟩
      · rcases ihmem with h | h
        · exact Or.inr (by rw [h]; exact List.mem_cons_self b l)
        · exact Or.inr (List.mem_cons_of_mem b h)
      · exact lexLe_of_le_of_lt _ _ _ ihacc hbm
      · intro e he
        rcases List.mem_cons.mp he with rfl | hel
        · exact ihacc
        · exact ihall e hel
    · have hmb' : miLess m b = false := by
        cases h : miLess m b
        · rfl
        · exact absurd h hmb
      rw [if_neg hmb] at ihmem ihacc ihall
      rw [if_neg hmb]
      refine ⟨?_, ihacc, ?_⟩
      · rcases ihmem with h | h
        · exact Or.inl h
        · exact Or.inr (List.mem_cons_of_mem b h)
      · intro e he
        rcases List.mem_cons.mp he with rfl | hel
        · exact lexLe_trans _ _ _ ihacc ((miLess_eq_false_iff m e).mp hmb')
        · exact ihall e hel

theorem qtop_spec (q : List MarkerInfo) (hq : q ≠ []) :
    ∃ m, qtop q = some m ∧ m ∈ q ∧ ∀ e ∈ q, lexLe m e := by
  cases q with
  | nil => exact absurd rfl hq
  | cons a l =>
    obtain ⟨hmem, hacc, hall⟩ := qfold_spec l a
    refine ⟨l.foldl (fun a b => if miLess a b then b else a) a, rfl, ?_, ?_⟩
    · rcases hmem with h | h
      · rw [h]; exact List.mem_cons_self a l
      · exact List.mem_cons_of_mem a h
    · intro e he
      rcases List.mem_cons.mp he with rfl | hel
      · exact hacc
      · exact hall e hel

/-- C2: each pop of the main loop removes the queue entry with the
smallest priority, ties broken by the smallest insertion index (FIFO
among equal priorities); the remaining queue is the old one with one
occurrence of that entry removed. -/
theorem watershed_pop_min (q : List MarkerInfo) (hq : q ≠ []) :
    ∃ m, qpop q = some (m, removeFirst q m) ∧ m ∈ q ∧
      ∀ e ∈ q, m.cost < e.cost ∨ (m.cost = e.cost ∧ m.idx ≤ e.idx) := by
  obtain ⟨m, htop, hmem, hall⟩ := qtop_spec q hq
  exact ⟨m, by rw [qpop, htop], hmem, hall⟩

theorem watershed_pop_min_witness :
    ([⟨5, 0, [0]⟩, ⟨3, 1, [1]⟩, ⟨3, 2, [2]⟩] : List MarkerInfo) ≠ [] ∧
    (∃ m, qpop [⟨5, 0, [0]⟩, ⟨3, 1, [1]⟩, ⟨3, 2, [2]⟩] =
        some (m, removeFirst [⟨5, 0, [0]⟩, ⟨3, 1, [1]⟩, ⟨3, 2, [2]⟩] m) ∧
      m ∈ ([⟨5, 0, [0]⟩, ⟨3, 1, [1]⟩, ⟨3, 2, [2]⟩] : List MarkerInfo) ∧
      ∀ e ∈ ([⟨5, 0, [0]⟩, ⟨3, 1, [1]⟩, ⟨3, 2, [2]⟩] : List MarkerInfo),
        m.cost < e.cost ∨ (m.cost = e.cost ∧ m.idx ≤ e.idx)) :=
  ⟨by decide, watershed_pop_min _ (by decide)⟩

/-! ### Watershed: state and flooding engine

`cwatershed` keeps per-call scratch state: the result array `res`
(freshly allocated, zero-filled by the binding layer's array
constructor), the `cost` array (initialized to the element type's
maximum, passed here as the explicit parameter `tmax`), the boolean
`status` array (initialized `false`), the priority queue, and the
insertion counter `idx`. -/

structure WState where
  res : Pos → Int
  cost : Pos → Int
  status : Pos → Bool
  queue : List MarkerInfo
  idx : Int

/-- One iteration of the initialization scan: at linear index `i`, if
the marker is nonzero, push `(markers.at(p), idx++, p)` (the constructor
converts the label to `int`), set `res.at(p) = markers.at(p)` and
`cost.at(p) = array.at(p)`. -/
def winitStep (array markers : NDArray) (s : WState) (i : Nat) : WState :=
  let p := unflatten array.dims i
  if markers.at_ p ≠ 0 then
    { res := upd s.res p (markers.at_ p)
      cost := upd s.cost p (array.at_ p)
      status := s.status
      queue := s.queue ++ [⟨toCInt (markers.at_ p), s.idx, p⟩]
      idx := s.idx + 1 }
  else s

/-- The initialization scan up to linear index `k`. -/
def winitAux (tmax : Int) (array markers : NDArray) (k : Nat) : WState :=
  (List.range k).foldl (winitStep array markers)
    ⟨fun _ => 0, fun _ => tmax, fun _ => false, [], 0⟩

/-- The fully initialized watershed state. -/
def winit (tmax : Int) (array markers : NDArray) : WState :=
  winitAux tmax array markers (prodDims array.dims)

/-- One iteration of the inner structuring-element loop after popping
position `p`: for the cell at linear index `j`, if it is active, the
neighbor is in bounds and unsettled, and its raw intensity strictly
improves on the recorded cost, then record the new cost, propagate the
popped position's label, and push `(ncost, idx++, npos)`. -/
def procCell (array Bc : NDArray) (p : Pos) (s : WState) (j : Nat) : WState :=
  let cell := unflatten Bc.dims j
  if Bc.at_ cell ≠ 0 then
    let npos := nbr (central_position Bc.dims) p cell
    if validposition array.dims npos && !(s.status npos) then
      let ncost := array.at_ npos
      if ncost < s.cost npos then
        { res := upd s.res npos (s.res p)
          cost := upd s.cost npos ncost
          status := s.status
          queue := s.queue ++ [⟨toCInt ncost, s.idx, npos⟩]
          idx := s.idx + 1 }
      else s
    else s
  else s

/-- One iteration of the main flooding loop: pop the top entry, mark its
position settled, and scan all structuring-element cells; `none` when
the queue is empty. -/
def wstep (array Bc : NDArray) (s : WState) : Option WState :=
  match qpop s.queue with
  | none => none
  | some (m, rest) =>
    some ((List.range (prodDims Bc.dims)).foldl
      (procCell array Bc m.pos)
      { s with queue := rest, status := updB s.status m.pos true })

/-- The main loop with explicit fuel; `wmeasure` below bounds the number
of iterations actually needed. -/
def wloop (array Bc : NDArray) : Nat → WState → WState
  | 0, s => s
  | fuel + 1, s =>
    match wstep array Bc s with
    | none => s
    | some s2 => wloop array Bc fuel s2

/-- Termination measure: queue length plus twice the number of positions
whose recorded cost still differs from their image intensity.  Each
update pushes one entry but settles one such position; each pop removes
one entry. -/
def wmeasure (array : NDArray) (s : WState) : Nat :=
  s.queue.length + 2 * ((Finset.range (prodDims array.dims)).filter
    (fun i => s.cost (unflatten array.dims i) ≠ array.at_ (unflatten array.dims i))).card

/-- The `cwatershed` operator: initialize from the markers, flood until the queue
empties, return the label array. -/
def cwatershed (tmax : Int) (array markers Bc : NDArray) : NDArray :=
  { dims := array.dims
    data := (wloop array Bc (wmeasure array (winit tmax array markers))
      (winit tmax array markers)).res }

/-- The concrete inputs of the truncation demonstration: a 1-D image of
two zero-intensity pixels whose markers carry a 64-bit label `2^31`
(outside C `int` range) at index 0 and label 1 at index 1. -/
def arr9 : NDArray := ⟨[2], fun _ => 0⟩

def mk9 : NDArray := ⟨[2], fun p => if p = [0] then 2 ^ 31 else 1⟩

/-- C9: the queue stores priorities as C `int`.  The seed whose 64-bit
label is `2^31` is pushed with the wrapped priority `-2^31`, and the pop
order follows the converted value: although its original label exceeds
the other seed's label 1, it is popped first. -/
theorem queue_cost_truncated :
    (winit 100 arr9 mk9).queue =
      [⟨-(2 ^ 31), 0, [0]⟩, ⟨toCInt (mk9.at_ [1]), 1, [1]⟩] ∧
    toCInt (mk9.at_ [0]) = -(2 ^ 31) ∧
    mk9.at_ [0] > mk9.at_ [1] ∧
    qpop (winit 100 arr9 mk9).queue =
      some (⟨-(2 ^ 31), 0, [0]⟩, [⟨toCInt (mk9.at_ [1]), 1, [1]⟩]) := by
  refine ⟨?_, by decide, by decide, ?_⟩
  · rfl
  · rfl

/-- Values already inside C `int` range are unchanged by the
conversion. -/
theorem toCInt_eq_self (x : Int) (h1 : -(2 ^ 31) ≤ x) (h2 : x < 2 ^ 31) :
    toCInt x = x := by
  rw [toCInt, Int.bmod_def]
  norm_num
  omega

/-- C1: one inner-loop iteration of the main loop, for the active cell at
index `j` with neighbor `n`.  If `n` is valid, unsettled, and its raw
intensity strictly improves on the recorded cost, the engine records the
new cost, propagates the popped position's label and pushes
`(array.at(n), idx++, n)`; otherwise it changes nothing. -/
theorem procCell_update (array Bc : NDArray) (p : Pos) (s : WState) (j : Nat)
    (n : Pos)
    (hact : Bc.at_ (unflatten Bc.dims j) ≠ 0)
    (hn : n = nbr (central_position Bc.dims) p (unflatten Bc.dims j))
    (hrange : -(2 ^ 31) ≤ array.at_ n ∧ array.at_ n < 2 ^ 31) :
    (validposition array.dims n = true → s.status n = false →
      array.at_ n < s.cost n →
      procCell array Bc p s j =
        { res := upd s.res n (s.res p)
          cost := upd s.cost n (array.at_ n)
          status := s.status
          queue := s.queue ++ [⟨array.at_ n, s.idx, n⟩]
          idx := s.idx + 1 }) ∧
    (¬(validposition array.dims n = true ∧ s.status n = false ∧
        array.at_ n < s.cost n) →
      procCell array Bc p s j = s) := by
  subst hn
  constructor
  · intro hv hst hlt
    simp only [procCell]
    rw [if_pos hact, hv, hst]
    simp only [Bool.not_false, Bool.and_self, if_pos hlt,
      toCInt_eq_self _ hrange.1 hrange.2]
    simp
  · intro hnot
    simp only [procCell]
    rw [if_pos hact]
    by_cases hv : validposition array.dims
        (nbr (central_position Bc.dims) p (unflatten Bc.dims j)) = true
    · by_cases hst : s.status
          (nbr (central_position Bc.dims) p (unflatten Bc.dims j)) = false
      · by_cases hlt : array.at_
            (nbr (central_position Bc.dims) p (unflatten Bc.dims j)) <
            s.cost (nbr (central_position Bc.dims) p (unflatten Bc.dims j))
        · exact absurd ⟨hv, hst, hlt⟩ hnot
        · rw [hv, hst]
          simp only [Bool.not_false, Bool.and_self, if_neg hlt]
          simp
      · have hst' : s.status
            (nbr (central_position Bc.dims) p (unflatten Bc.dims j)) = true := by
          cases h : s.status (nbr (central_position Bc.dims) p (unflatten Bc.dims j))
          · exact absurd h hst
          · rfl
        rw [hv, hst']
        simp only [Bool.not_true, Bool.and_false]
        rw [if_neg (by simp)]
    · have hv' : validposition array.dims
          (nbr (central_position Bc.dims) p (unflatten Bc.dims j)) = false := by
        cases h : validposition array.dims
            (nbr (central_position Bc.dims) p (unflatten Bc.dims j))
        · rfl
        · exact absurd h hv
      rw [hv']
      simp only [Bool.false_and]
      rw [if_neg (by simp)]

/-- Concrete inputs for the C1 witness: a one-cell structuring element
whose single active cell is its own center, so the neighbor of `[0]` is
`[0]` itself, unsettled and with recorded cost 10 > intensity 3. -/
def arrW : NDArray := ⟨[2], fun _ => 3⟩

def bcW : NDArray := ⟨[1], fun _ => 1⟩

def sW : WState := ⟨fun _ => 0, fun _ => 10, fun _ => false, [], 0⟩

theorem procCell_update_witness :
    bcW.at_ (unflatten bcW.dims 0) ≠ 0 ∧
    ([0] : Pos) = nbr (central_position bcW.dims) [0] (unflatten bcW.dims 0) ∧
    (-(2 ^ 31) ≤ arrW.at_ [0] ∧ arrW.at_ [0] < 2 ^ 31) ∧
    ((validposition arrW.dims [0] = true → sW.status [0] = false →
      arrW.at_ [0] < sW.cost [0] →
      procCell arrW bcW [0] sW 0 =
        { res := upd sW.res [0] (sW.res [0])
          cost := upd sW.cost [0] (arrW.at_ [0])
          status := sW.status
          queue := sW.queue ++ [⟨arrW.at_ [0], sW.idx, [0]⟩]
          idx := sW.idx + 1 }) ∧
    (¬(validposition arrW.dims [0] = true ∧ sW.status [0] = false ∧
        arrW.at_ [0] < sW.cost [0]) →
      procCell arrW bcW [0] sW 0 = sW)) :=
  ⟨by decide, by decide, by decide,
    procCell_update arrW bcW [0] sW 0 [0] (by decide) (by decide) (by decide)⟩

/-! ### Watershed: initialization -/

theorem winitAux_succ (tmax : Int) (array markers : NDArray) (k : Nat) :
    winitAux tmax array markers (k + 1) =
      winitStep array markers (winitAux tmax array markers k) k := by
  rw [winitAux, winitAux, List.range_succ, List.foldl_append, List.foldl_cons,
    List.foldl_nil]

/-- Invariant of the initialization scan after the first `k` linear
indices: every queue entry sits at a previously scanned seed and carries
the converted marker label as its cost; every scanned seed has its label
in `res`, its image intensity in `cost`, and an entry in the queue;
non-marker positions are untouched; a nonzero `res` implies a queue
entry; `status` is untouched. -/
theorem winitAux_invariant (tmax : Int) (array markers : NDArray) (k : Nat)
    (hk : k ≤ prodDims array.dims) :
    (∀ m ∈ (winitAux tmax array markers k).queue,
      ∃ i < k, m.pos = unflatten array.dims i ∧ markers.at_ m.pos ≠ 0 ∧
        m.cost = toCInt (markers.at_ m.pos)) ∧
    (∀ i < k, markers.at_ (unflatten array.dims i) ≠ 0 →
      (winitAux tmax array markers k).res (unflatten array.dims i) =
        markers.at_ (unflatten array.dims i) ∧
      (winitAux tmax array markers k).cost (unflatten array.dims i) =
        array.at_ (unflatten array.dims i) ∧
      ∃ m ∈ (winitAux tmax array markers k).queue, m.pos = unflatten array.dims i) ∧
    (∀ p, markers.at_ p = 0 →
      (winitAux tmax array markers k).res p = 0 ∧
      (winitAux tmax array markers k).cost p = tmax) ∧
    (∀ p, (winitAux tmax array markers k).res p ≠ 0 →
      ∃ m ∈ (winitAux tmax array markers k).queue, m.pos = p) ∧
    (winitAux tmax array markers k).status = (fun _ => false) := by
  induction k with
  | zero =>
    refine ⟨?_, ?_, ?_, ?_, rfl⟩
    · intro m hm; cases hm
    · intro i hi; omega
    · intro p _; exact ⟨rfl, rfl⟩
    · intro p hp; exact absurd rfl hp
  | succ k ih =>
    have hkN : k < prodDims array.dims := hk
    obtain ⟨ih1, ih2, ih3, ih4, ih5⟩ := ih (Nat.le_of_lt hkN)
    rw [winitAux_succ]
    by_cases hmk : markers.at_ (unflatten array.dims k) ≠ 0
    · have hres : (winitStep array markers (winitAux tmax array markers k) k).res =
          upd (winitAux tmax array markers k).res (unflatten array.dims k)
            (markers.at_ (unflatten array.dims k)) := by
        simp [winitStep, hmk]
      have hcost : (winitStep array markers (winitAux tmax array markers k) k).cost =
          upd (winitAux tmax array markers k).cost (unflatten array.dims k)
            (array.at_ (unflatten array.dims k)) := by
        simp [winitStep, hmk]
      have hstat : (winitStep array markers (winitAux tmax array markers k) k).status =
          (winitAux tmax array markers k).status := by
        simp [winitStep, hmk]
      have hq : (winitStep array markers (winitAux tmax array markers k) k).queue =
          (winitAux tmax array markers k).queue ++
            [⟨toCInt (markers.at_ (unflatten array.dims k)),
              (winitAux tmax array markers k).idx, unflatten array.dims k⟩] := by
        simp [winitStep, hmk]
      rw [hres, hcost, hstat, hq]
      refine ⟨?_, ?_, ?_, ?_, ih5⟩
      · intro m hm
        rcases List.mem_append.mp hm with hold | hnew
        · obtain ⟨i, hi, h⟩ := ih1 m hold
          exact ⟨i, Nat.lt_succ_of_lt hi, h⟩
        · rcases List.mem_singleton.mp hnew with rfl
          exact ⟨k, Nat.lt_succ_self k, rfl, hmk, rfl⟩
      · intro i hi hmi
        rcases Nat.lt_succ_iff_lt_or_eq.mp hi with hik | rfl
        · have hne : unflatten array.dims i ≠ unflatten array.dims k := by
            intro he
            exact absurd (unflatten_inj array.dims i k
              (Nat.lt_trans hik hkN) hkN he) (Nat.ne_of_lt hik)
          obtain ⟨hres2, hcost2, m, hm, hmp⟩ := ih2 i hik hmi
          exact ⟨by rw [upd_ne _ _ _ _ hne, hres2],
            by rw [upd_ne _ _ _ _ hne, hcost2],
            m, List.mem_append_left _ hm, hmp⟩
        · refine ⟨upd_same _ _ _, upd_same _ _ _, ?_⟩
          exact ⟨⟨toCInt (markers.at_ (unflatten array.dims i)),
            (winitAux tmax array markers i).idx, unflatten array.dims i⟩,
            List.mem_append_right _ (List.mem_singleton.mpr rfl), rfl⟩
      · intro p hp0
        have hne : p ≠ unflatten array.dims k := by
          intro he; rw [he] at hp0; exact hmk hp0
        obtain ⟨h1, h2⟩ := ih3 p hp0
        exact ⟨by rw [upd_ne _ _ _ _ hne, h1], by rw [upd_ne _ _ _ _ hne, h2]⟩
      · intro p hp
        by_cases hpe : p = unflatten array.dims k
        · refine ⟨⟨toCInt (markers.at_ (unflatten array.dims k)),
            (winitAux tmax array markers k).idx, unflatten array.dims k⟩,
            List.mem_append_right _ (List.mem_singleton.mpr rfl), hpe.symm⟩
        · rw [upd_ne _ _ _ _ hpe] at hp
          obtain ⟨m, hm, hmp⟩ := ih4 p hp
          exact ⟨m, List.mem_append_left _ hm, hmp⟩
    · have hs' : winitStep array markers (winitAux tmax array markers k) k =
          winitAux tmax array markers k := by
        simp only [winitStep, ne_eq, if_neg hmk]
      rw [hs']
      refine ⟨?_, ?_, ih3, ih4, ih5⟩
      · intro m hm
        obtain ⟨i, hi, h⟩ := ih1 m hm
        exact ⟨i, Nat.lt_succ_of_lt hi, h⟩
      · intro i hi hmi
        rcases Nat.lt_succ_iff_lt_or_eq.mp hi with hik | rfl
        · exact ih2 i hik hmi
        · exact absurd hmi hmk

/-- C3: initialization.  At every marker position the pushed queue entry
carries the marker's label value as its priority (not the image
intensity), `cost` receives the seed's image intensity and `res` the
seed's label; positions without a marker push no entry and are left at
their initial values (`res` zero, `cost` at the type maximum). -/
theorem winit_seeds (tmax : Int) (array markers : NDArray) (p : Pos)
    (hp : validposition array.dims p = true)
    (hrange : -(2 ^ 31) ≤ markers.at_ p ∧ markers.at_ p < 2 ^ 31) :
    (markers.at_ p ≠ 0 →
      (winit tmax array markers).res p = markers.at_ p ∧
      (winit tmax array markers).cost p = array.at_ p ∧
      (∃ m ∈ (winit tmax array markers).queue, m.pos = p) ∧
      (∀ m ∈ (winit tmax array markers).queue, m.pos = p →
        m.cost = markers.at_ p)) ∧
    (markers.at_ p = 0 →
      (winit tmax array markers).res p = 0 ∧
      (winit tmax array markers).cost p = tmax ∧
      ∀ m ∈ (winit tmax array markers).queue, m.pos ≠ p) := by
  obtain ⟨inv1, inv2, inv3, inv4, inv5⟩ :=
    winitAux_invariant tmax array markers (prodDims array.dims) (Nat.le_refl _)
  constructor
  · intro hmz
    have hi : flatten array.dims p < prodDims array.dims := flatten_lt _ _ hp
    have hu : unflatten array.dims (flatten array.dims p) = p :=
      unflatten_flatten _ _ hp
    obtain ⟨hres, hcost, hex⟩ := inv2 (flatten array.dims p) hi (by rwa [hu])
    rw [hu] at hres hcost hex
    refine ⟨hres, hcost, hex, ?_⟩
    intro m hm hmp
    obtain ⟨i, _, _, _, hcostm⟩ := inv1 m hm
    rw [hmp] at hcostm
    rw [hcostm, toCInt_eq_self _ hrange.1 hrange.2]
  · intro hmz
    obtain ⟨h1, h2⟩ := inv3 p hmz
    refine ⟨h1, h2, ?_⟩
    intro m hm hmp
    obtain ⟨i, _, _, hmark, _⟩ := inv1 m hm
    rw [hmp] at hmark
    exact hmark hmz

/-- Concrete inputs for the initialization witness: a 1-D image with a
single marker of label 4 at index 0. -/
def arrC3 : NDArray := ⟨[2], fun _ => 7⟩

def mkC3 : NDArray := ⟨[2], fun p => if p = [0] then 4 else 0⟩

theorem winit_seeds_witness :
    validposition arrC3.dims [0] = true ∧
    (-(2 ^ 31) ≤ mkC3.at_ [0] ∧ mkC3.at_ [0] < 2 ^ 31) ∧
    ((mkC3.at_ [0] ≠ 0 →
      (winit 100 arrC3 mkC3).res [0] = mkC3.at_ [0] ∧
      (winit 100 arrC3 mkC3).cost [0] = arrC3.at_ [0] ∧
      (∃ m ∈ (winit 100 arrC3 mkC3).queue, m.pos = [0]) ∧
      (∀ m ∈ (winit 100 arrC3 mkC3).queue, m.pos = [0] →
        m.cost = mkC3.at_ [0])) ∧
    (mkC3.at_ [0] = 0 →
      (winit 100 arrC3 mkC3).res [0] = 0 ∧
      (winit 100 arrC3 mkC3).cost [0] = 100 ∧
      ∀ m ∈ (winit 100 arrC3 mkC3).queue, m.pos ≠ [0])) :=
  ⟨by decide, by decide, winit_seeds 100 arrC3 mkC3 [0] (by decide) (by decide)⟩

/-! ### Watershed: main-loop invariants -/

/-- Each inner-loop iteration either leaves the state unchanged or
performs the full strict-improvement update at the neighbor. -/
theorem procCell_cases (array Bc : NDArray) (p : Pos) (s : WState) (j : Nat) :
    procCell array Bc p s j = s ∨
    ∃ n, n = nbr (central_position Bc.dims) p (unflatten Bc.dims j) ∧
      validposition array.dims n = true ∧ s.status n = false ∧
      array.at_ n < s.cost n ∧
      procCell array Bc p s j =
        { res := upd s.res n (s.res p)
          cost := upd s.cost n (array.at_ n)
          status := s.status
          queue := s.queue ++ [⟨toCInt (array.at_ n), s.idx, n⟩]
          idx := s.idx + 1 } := by
  by_cases hact : Bc.at_ (unflatten Bc.dims j) ≠ 0
  · by_cases hb : (validposition array.dims
        (nbr (central_position Bc.dims) p (unflatten Bc.dims j)) &&
        !(s.status (nbr (central_position Bc.dims) p (unflatten Bc.dims j)))) = true
    · obtain ⟨hv, hst⟩ := Bool.and_eq_true_iff.mp hb
      have hst' : s.status (nbr (central_position Bc.dims) p (unflatten Bc.dims j)) =
          false := by
        revert hst
        cases s.status (nbr (central_position Bc.dims) p (unflatten Bc.dims j)) <;> simp
      by_cases hlt : array.at_ (nbr (central_position Bc.dims) p (unflatten Bc.dims j)) <
          s.cost (nbr (central_position Bc.dims) p (unflatten Bc.dims j))
      · refine Or.inr ⟨_, rfl, hv, hst', hlt, ?_⟩
        simp only [procCell]
        rw [if_pos hact, if_pos hb, if_pos hlt]
      · refine Or.inl ?_
        simp only [procCell]
        rw [if_pos hact, if_pos hb, if_neg hlt]
    · refine Or.inl ?_
      simp only [procCell]
      rw [if_pos hact, if_neg hb]
  · refine Or.inl ?_
    simp only [procCell]
    rw [if_neg hact]

/-- Invariant behind C4: at every valid marker position the label is the
marker label and the recorded cost is the position's own image
intensity. -/
def seedInv (array markers : NDArray) (s : WState) : Prop :=
  ∀ p, validposition array.dims p = true → markers.at_ p ≠ 0 →
    s.res p = markers.at_ p ∧ s.cost p = array.at_ p

theorem seedInv_procCell (array Bc markers : NDArray) (p : Pos) (s : WState)
    (j : Nat) (h : seedInv array markers s) :
    seedInv array markers (procCell array Bc p s j) := by
  rcases procCell_cases array Bc p s j with heq | ⟨n, _, hv, _, hlt, heq⟩
  · rw [heq]; exact h
  · rw [heq]
    intro q hq hmq
    by_cases hqn : q = n
    · subst hqn
      have := (h q hq hmq).2
      rw [this] at hlt
      exact absurd hlt (lt_irrefl _)
    · obtain ⟨h1, h2⟩ := h q hq hmq
      constructor
      · show upd s.res n (s.res p) q = _
        rw [upd_ne _ _ _ _ hqn]; exact h1
      · show upd s.cost n (array.at_ n) q = _
        rw [upd_ne _ _ _ _ hqn]; exact h2

theorem seedInv_foldl (array Bc markers : NDArray) (p : Pos)
    (l : List Nat) (s : WState) (h : seedInv array markers s) :
    seedInv array markers (l.foldl (procCell array Bc p) s) := by
  induction l generalizing s with
  | nil => exact h
  | cons j rest ih =>
    rw [List.foldl_cons]
    exact ih _ (seedInv_procCell array Bc markers p s j h)

theorem seedInv_wstep (array Bc markers : NDArray) (s s2 : WState)
    (hstep : wstep array Bc s = some s2) (h : seedInv array markers s) :
    seedInv array markers s2 := by
  rw [wstep] at hstep
  cases hqp : qpop s.queue with
  | none => rw [hqp] at hstep; cases hstep
  | some mr =>
    rw [hqp] at hstep
    obtain ⟨m, rest⟩ := mr
    have hs2 := Option.some_inj.mp hstep
    rw [← hs2]
    apply seedInv_foldl
    intro q hq hmq
    exact h q hq hmq

theorem seedInv_wloop (array Bc markers : NDArray) (fuel : Nat) (s : WState)
    (h : seedInv array markers s) :
    seedInv array markers (wloop array Bc fuel s) := by
  induction fuel generalizing s with
  | zero => exact h
  | succ k ih =>
    rw [wloop]
    cases hst : wstep array Bc s with
    | none => exact h
    | some s2 => exact ih s2 (seedInv_wstep array Bc markers s s2 hst h)

theorem seedInv_winit (tmax : Int) (array markers : NDArray) :
    seedInv array markers (winit tmax array markers) := by
  obtain ⟨_, inv2, _, _, _⟩ :=
    winitAux_invariant tmax array markers (prodDims array.dims) (Nat.le_refl _)
  intro p hp hm
  have hi : flatten array.dims p < prodDims array.dims := flatten_lt _ _ hp
  have hu : unflatten array.dims (flatten array.dims p) = p :=
    unflatten_flatten _ _ hp
  obtain ⟨h1, h2, _⟩ := inv2 (flatten array.dims p) hi (by rwa [hu])
  rw [hu] at h1 h2
  exact ⟨h1, h2⟩

/-- C4: seed positions are never relabeled.  At any point of the run
after initialization (any fuel), and in particular in the returned
result, a marker position's label equals its input marker value. -/
theorem watershed_seed_preserved (tmax : Int) (array markers Bc : NDArray)
    (p : Pos) (hp : validposition array.dims p = true)
    (hm : markers.at_ p ≠ 0) :
    (∀ fuel, (wloop array Bc fuel (winit tmax array markers)).res p =
      markers.at_ p) ∧
    (cwatershed tmax array markers Bc).at_ p = markers.at_ p := by
  have hloop : ∀ fuel, (wloop array Bc fuel (winit tmax array markers)).res p =
      markers.at_ p := by
    intro fuel
    exact (seedInv_wloop array Bc markers fuel _
      (seedInv_winit tmax array markers) p hp hm).1
  exact ⟨hloop, hloop _⟩

theorem watershed_seed_preserved_witness :
    validposition arrC3.dims [0] = true ∧ mkC3.at_ [0] ≠ 0 ∧
    ((∀ fuel, (wloop arrC3 bcW fuel (winit 100 arrC3 mkC3)).res [0] =
      mkC3.at_ [0]) ∧
    (cwatershed 100 arrC3 mkC3 bcW).at_ [0] = mkC3.at_ [0]) :=
  ⟨by decide, by decide,
    watershed_seed_preserved 100 arrC3 mkC3 bcW [0] (by decide) (by decide)⟩

/-! ### Watershed: termination and unlabeled positions -/

theorem qtop_eq_none_iff (q : List MarkerInfo) : qtop q = none ↔ q = [] := by
  cases q with
  | nil => simp [qtop]
  | cons a l => simp [qtop]

theorem qpop_eq_none_iff (q : List MarkerInfo) : qpop q = none ↔ q = [] := by
  rw [qpop]
  cases hq : qtop q with
  | none => simpa using (qtop_eq_none_iff q).mp hq
  | some m =>
    simp only []
    constructor
    · intro h; cases h
    · intro h
      rw [h] at hq
      cases hq

theorem qpop_eq_some (q : List MarkerInfo) (m : MarkerInfo)
    (rest : List MarkerInfo) (h : qpop q = some (m, rest)) :
    m ∈ q ∧ rest = removeFirst q m := by
  rw [qpop] at h
  cases hq : qtop q with
  | none => rw [hq] at h; cases h
  | some m2 =>
    rw [hq] at h
    obtain ⟨h1, h2⟩ := Prod.mk.injEq .. ▸ Option.some_inj.mp h
    have hne : q ≠ [] := by
      intro he
      rw [he] at hq
      cases hq
    obtain ⟨m3, htop, hmem, _⟩ := qtop_spec q hne
    rw [hq] at htop
    have hm3 : m3 = m2 := Option.some_inj.mp htop.symm
    subst h1
    rw [← h2, ← hm3]
    exact ⟨hmem, rfl⟩

theorem removeFirst_length (q : List MarkerInfo) (m : MarkerInfo) (h : m ∈ q) :
    (removeFirst q m).length + 1 = q.length := by
  induction q with
  | nil => cases h
  | cons x xs ih =>
    rw [removeFirst]
    by_cases hxm : x = m
    · rw [if_pos hxm, List.length_cons]
    · rw [if_neg hxm, List.length_cons, List.length_cons]
      have hmx : m ∈ xs := by
        rcases List.mem_cons.mp h with rfl | hx
        · exact absurd rfl hxm
        · exact hx
      rw [ih hmx]

theorem mem_removeFirst_of_ne (q : List MarkerInfo) (e m : MarkerInfo)
    (he : e ∈ q) (hne : e ≠ m) : e ∈ removeFirst q m := by
  induction q with
  | nil => cases he
  | cons x xs ih =>
    rw [removeFirst]
    by_cases hxm : x = m
    · rw [if_pos hxm]
      rcases List.mem_cons.mp he with rfl | hx
      · exact absurd hxm hne
      · exact hx
    · rw [if_neg hxm]
      rcases List.mem_cons.mp he with rfl | hx
      · exact List.mem_cons_self e _
      · exact List.mem_cons_of_mem x (ih hx)

theorem procCell_measure (array Bc : NDArray) (p : Pos) (s : WState) (j : Nat) :
    wmeasure array (procCell array Bc p s j) ≤ wmeasure array s := by
  rcases procCell_cases array Bc p s j with heq | ⟨n, _, hv, _, hlt, heq⟩
  · rw [heq]
  · rw [heq]
    unfold wmeasure
    dsimp only
    have hi0 : flatten array.dims n < prodDims array.dims := flatten_lt _ _ hv
    have hu0 : unflatten array.dims (flatten array.dims n) = n :=
      unflatten_flatten _ _ hv
    have hfilter :
        (Finset.range (prodDims array.dims)).filter
          (fun i => upd s.cost n (array.at_ n) (unflatten array.dims i) ≠
            array.at_ (unflatten array.dims i)) =
        ((Finset.range (prodDims array.dims)).filter
          (fun i => s.cost (unflatten array.dims i) ≠
            array.at_ (unflatten array.dims i))).erase (flatten array.dims n) := by
      ext i
      simp only [Finset.mem_filter, Finset.mem_erase, Finset.mem_range]
      constructor
      · rintro ⟨hir, hpred⟩
        have hine : i ≠ flatten array.dims n := by
          intro he
          rw [he, hu0, upd_same] at hpred
          exact hpred rfl
        have hune : unflatten array.dims i ≠ n := by
          intro he
          apply hine
          have hfu := flatten_unflatten array.dims i hir
          rw [← hfu, he]
        rw [upd_ne _ _ _ _ hune] at hpred
        exact ⟨hine, hir, hpred⟩
      · rintro ⟨hine, hir, hpred⟩
        have hune : unflatten array.dims i ≠ n := by
          intro he
          apply hine
          have hfu := flatten_unflatten array.dims i hir
          rw [← hfu, he]
        refine ⟨hir, ?_⟩
        rw [upd_ne _ _ _ _ hune]
        exact hpred
    have hmem : flatten array.dims n ∈
        (Finset.range (prodDims array.dims)).filter
          (fun i => s.cost (unflatten array.dims i) ≠
            array.at_ (unflatten array.dims i)) := by
      rw [Finset.mem_filter, Finset.mem_range]
      refine ⟨hi0, ?_⟩
      rw [hu0]
      omega
    have hcard := Finset.card_erase_of_mem hmem
    have hpos : 0 < ((Finset.range (prodDims array.dims)).filter
        (fun i => s.cost (unflatten array.dims i) ≠
          array.at_ (unflatten array.dims i))).card :=
      Finset.card_pos.mpr ⟨flatten array.dims n, hmem⟩
    rw [List.length_append, List.length_singleton, hfilter, hcard]
    omega

theorem foldl_procCell_measure (array Bc : NDArray) (p : Pos)
    (l : List Nat) (s : WState) :
    wmeasure array (l.foldl (procCell array Bc p) s) ≤ wmeasure array s := by
  induction l generalizing s with
  | nil => exact Nat.le_refl _
  | cons j rest ih =>
    rw [List.foldl_cons]
    exact Nat.le_trans (ih _) (procCell_measure array Bc p s j)

theorem wstep_measure (array Bc : NDArray) (s s2 : WState)
    (h : wstep array Bc s = some s2) : wmeasure array s2 < wmeasure array s := by
  rw [wstep] at h
  cases hqp : qpop s.queue with
  | none => rw [hqp] at h; cases h
  | some mr =>
    rw [hqp] at h
    obtain ⟨m, rest⟩ := mr
    obtain ⟨hmem, hrest⟩ := qpop_eq_some s.queue m rest hqp
    have hlen := removeFirst_length s.queue m hmem
    rw [← Option.some_inj.mp h]
    have hmid : wmeasure array
        { s with queue := rest, status := updB s.status m.pos true } <
        wmeasure array s := by
      unfold wmeasure
      simp only []
      rw [hrest]
      omega
    exact Nat.lt_of_le_of_lt (foldl_procCell_measure array Bc m.pos _ _) hmid

theorem wloop_drains (array Bc : NDArray) (k : Nat) (s : WState)
    (h : wmeasure array s ≤ k) : (wloop array Bc k s).queue = [] := by
  induction k generalizing s with
  | zero =>
    have : s.queue.length = 0 := by
      unfold wmeasure at h
      omega
    rw [wloop]
    exact List.length_eq_zero.mp this
  | succ k ih =>
    rw [wloop]
    cases hst : wstep array Bc s with
    | none =>
      rw [wstep] at hst
      cases hqp : qpop s.queue with
      | none => exact (qpop_eq_none_iff s.queue).mp hqp
      | some mr => rw [hqp] at hst; cases hst
    | some s2 =>
      have := wstep_measure array Bc s s2 hst
      exact ih s2 (by omega)

/-- Invariant behind the second half of C8: any position whose label is
nonzero has either been settled or is present in the queue. -/
def resPushed (s : WState) : Prop :=
  ∀ p, s.res p ≠ 0 → s.status p = true ∨ ∃ m ∈ s.queue, m.pos = p

theorem resPushed_winit (tmax : Int) (array markers : NDArray) :
    resPushed (winit tmax array markers) := by
  obtain ⟨_, _, _, inv4, _⟩ :=
    winitAux_invariant tmax array markers (prodDims array.dims) (Nat.le_refl _)
  intro p hp
  exact Or.inr (inv4 p hp)

theorem resPushed_procCell (array Bc : NDArray) (p : Pos) (s : WState) (j : Nat)
    (h : resPushed s) : resPushed (procCell array Bc p s j) := by
  rcases procCell_cases array Bc p s j with heq | ⟨n, _, _, _, _, heq⟩
  · rw [heq]; exact h
  · rw [heq]
    intro q hq
    by_cases hqn : q = n
    · subst hqn
      exact Or.inr ⟨⟨toCInt (array.at_ q), s.idx, q⟩,
        List.mem_append_right _ (List.mem_singleton.mpr rfl), rfl⟩
    · have hq2 : upd s.res n (s.res p) q ≠ 0 := hq
      have hq' : s.res q ≠ 0 := by rwa [upd_ne _ _ _ _ hqn] at hq2
      rcases h q hq' with hst | ⟨m, hm, hmp⟩
      · exact Or.inl hst
      · exact Or.inr ⟨m, List.mem_append_left _ hm, hmp⟩

theorem resPushed_foldl (array Bc : NDArray) (p : Pos) (l : List Nat)
    (s : WState) (h : resPushed s) :
    resPushed (l.foldl (procCell array Bc p) s) := by
  induction l generalizing s with
  | nil => exact h
  | cons j rest ih =>
    rw [List.foldl_cons]
    exact ih _ (resPushed_procCell array Bc p s j h)

theorem resPushed_wstep (array Bc : NDArray) (s s2 : WState)
    (hstep : wstep array Bc s = some s2) (h : resPushed s) : resPushed s2 := by
  rw [wstep] at hstep
  cases hqp : qpop s.queue with
  | none => rw [hqp] at hstep; cases hstep
  | some mr =>
    rw [hqp] at hstep
    obtain ⟨m, rest⟩ := mr
    obtain ⟨hmem, hrest⟩ := qpop_eq_some s.queue m rest hqp
    rw [← Option.some_inj.mp hstep]
    apply resPushed_foldl
    intro q hq
    rcases h q hq with hst | ⟨e, he, hep⟩
    · left
      show updB s.status m.pos true q = true
      by_cases hqm : q = m.pos
      · rw [hqm, updB_same]
      · rw [updB_ne _ _ _ _ hqm]; exact hst
    · by_cases hem : e = m
      · left
        show updB s.status m.pos true q = true
        rw [← hep, hem, updB_same]
      · right
        exact ⟨e, by rw [hrest]; exact mem_removeFirst_of_ne s.queue e m he hem, hep⟩

theorem resPushed_wloop (array Bc : NDArray) (fuel : Nat) (s : WState)
    (h : resPushed s) : resPushed (wloop array Bc fuel s) := by
  induction fuel generalizing s with
  | zero => exact h
  | succ k ih =>
    rw [wloop]
    cases hst : wstep array Bc s with
    | none => exact h
    | some s2 => exact ih s2 (resPushed_wstep array Bc s s2 hst h)

/-- C8: the main loop terminates — with fuel equal to the measure of the
initialized state, the queue is drained empty (each push needs a strict
cost improvement at its position, so pushes are finite) — and every
position never settled (equivalently, never pushed: the loop runs until
every pushed entry has been popped) keeps its initial zero label in the
returned result. -/
theorem cwatershed_terminates (tmax : Int) (array markers Bc : NDArray) :
    (wloop array Bc (wmeasure array (winit tmax array markers))
      (winit tmax array markers)).queue = [] ∧
    ∀ p, (wloop array Bc (wmeasure array (winit tmax array markers))
        (winit tmax array markers)).status p = false →
      (cwatershed tmax array markers Bc).at_ p = 0 := by
  have hdrain := wloop_drains array Bc (wmeasure array (winit tmax array markers))
    (winit tmax array markers) (Nat.le_refl _)
  refine ⟨hdrain, ?_⟩
  intro p hps
  have hpush := resPushed_wloop array Bc (wmeasure array (winit tmax array markers))
    (winit tmax array markers) (resPushed_winit tmax array markers)
  show (wloop array Bc (wmeasure array (winit tmax array markers))
    (winit tmax array markers)).res p = 0
  by_contra hne
  rcases hpush p hne with hst | ⟨m, hm, _⟩
  · rw [hps] at hst
    cases hst
  · rw [hdrain] at hm
    cases hm

end Morph
